import Mathlib

/-!
Verification of the embedded-SQL validation engine of `vscode-psql-hasql`
(`src/extension.ts`), shallowly embedded in Lean 4.

Modelling conventions, chosen to mirror the TypeScript/JavaScript source:

* Strings are modelled as `List Char`; a document is a `List (List Char)`
  (the sequence of its lines, as produced by `doc.lineAt`).  Columns are
  indices into those lists.  (JS `indexOf` counts UTF-16 code units; the
  two agree on all code points below `0x10000`, which covers SQL text.)
* JavaScript 32-bit integers are modelled as `Nat` values `< 2 ^ 32`
  holding the unsigned bit pattern: `Math.imul a b` is `(a * b) % 2 ^ 32`,
  `^` is `Nat.xor`, `>>> k` is `Nat.shiftRight`, and `ToInt32` of a
  non-negative integer is `% 2 ^ 32`.  Signedness is only observable in
  the final combination of `cyrb53`, where the source applies
  `2097151 & h2` (the mask keeps the low 21 bits of the bit pattern,
  independent of sign) and `h1 >>> 0` (the unsigned value).
* `str.charCodeAt i` enumerates UTF-16 code units; `utf16Units` performs
  that encoding (surrogate pairs for code points `≥ 0x10000`).
* Recursions that the source runs as regex scans or `while`-style loops
  over shrinking suffixes are written with an explicit fuel argument
  initialised to the string length, so every definition is structurally
  recursive and kernel-reducible; the fuel never runs out on the initial
  call.
-/

/-! ### JavaScript character classes -/

/-- The character class `\s` of ECMAScript regular expressions, which is
also exactly the set trimmed by `String.prototype.trim`/`trimEnd`
(WhiteSpace together with LineTerminator). -/
def isJsWs (c : Char) : Bool :=
  decide (c.toNat = 9 ∨ c.toNat = 10 ∨ c.toNat = 11 ∨ c.toNat = 12 ∨
    c.toNat = 13 ∨ c.toNat = 32 ∨ c.toNat = 160 ∨ c.toNat = 5760 ∨
    (8192 ≤ c.toNat ∧ c.toNat ≤ 8202) ∨ c.toNat = 8232 ∨ c.toNat = 8233 ∨
    c.toNat = 8239 ∨ c.toNat = 8287 ∨ c.toNat = 12288 ∨ c.toNat = 65279)

/-- Characters removed by the source's line-break regex `(\r\n|\n|\r)`;
deleting every occurrence of those alternatives deletes exactly the
characters `\r` and `\n`. -/
def isLineBreak (c : Char) : Bool :=
  decide (c.toNat = 13 ∨ c.toNat = 10)

/-- Decimal digit, the regex class `[0-9]`. -/
def isDigitC (c : Char) : Bool :=
  decide (48 ≤ c.toNat ∧ c.toNat ≤ 57)

/-- Non-zero decimal digit, the regex class `[1-9]`. -/
def isNzDigit (c : Char) : Bool :=
  decide (49 ≤ c.toNat ∧ c.toNat ≤ 57)

/-- ASCII lower-casing, the effect of `toLocaleLowerCase` on the ASCII
range (locale mappings of non-ASCII letters are outside this model). -/
def lowerAscii (c : Char) : Char :=
  if 65 ≤ c.toNat ∧ c.toNat ≤ 90 then Char.ofNat (c.toNat + 32) else c

/-- The UTF-16 code-unit sequence of a string, i.e. the values
`str.charCodeAt 0, str.charCodeAt 1, …` enumerated by the hash loop. -/
def utf16Units (s : List Char) : List Nat :=
  s.foldr (fun c acc =>
    if c.toNat < 65536 then c.toNat :: acc
    else (55296 + (c.toNat - 65536) / 1024) :: (56320 + (c.toNat - 65536) % 1024) :: acc) []

/-! ### The fragment hasher `cyrb53` (src/extension.ts line 23) -/

/-- `Math.imul` on unsigned 32-bit bit patterns. -/
def imul32 (a b : Nat) : Nat := (a * b) % 4294967296

/-- The per-character mixing loop of `cyrb53`:
`h1 = imul(h1 ^ ch, 2654435761); h2 = imul(h2 ^ ch, 1597334677)`. -/
def cyrb53Loop : List Nat → Nat × Nat → Nat × Nat
  | [], h => h
  | ch :: rest, (h1, h2) =>
      cyrb53Loop rest (imul32 (h1 ^^^ ch) 2654435761, imul32 (h2 ^^^ ch) 1597334677)

/-- The cross-lane finalisation of `cyrb53` (lines 30–31): the second
lane's avalanche consumes the already-finalised first lane. -/
def cyrb53Final (h : Nat × Nat) : Nat × Nat :=
  let f1 := imul32 (h.1 ^^^ (h.1 >>> 16)) 2246822507 ^^^ imul32 (h.2 ^^^ (h.2 >>> 13)) 3266489909
  let f2 := imul32 (h.2 ^^^ (h.2 >>> 16)) 2246822507 ^^^ imul32 (f1 ^^^ (f1 >>> 13)) 3266489909
  (f1, f2)

/-- The two lanes before the loop: `0xdeadbeef ^ seed` and
`0x41c6ce57 ^ seed` (`^` first coerces `seed` through `ToInt32`). -/
def cyrb53Init (seed : Nat) : Nat × Nat :=
  (3735928559 ^^^ (seed % 4294967296), 1103547991 ^^^ (seed % 4294967296))

/-- The 53-bit string hash `cyrb53` of src/extension.ts lines 23–33,
over the UTF-16 code units of the input.  The final
`4294967296 * (2097151 & h2) + (h1 >>> 0)` appears as
`4294967296 * (2097151 &&& f2) + f1` on the unsigned bit patterns. -/
def cyrb53 (s : List Nat) (seed : Nat) : Nat :=
  4294967296 * (2097151 &&& (cyrb53Final (cyrb53Loop s (cyrb53Init seed))).2)
    + (cyrb53Final (cyrb53Loop s (cyrb53Init seed))).1

/-! ### Fragment-text normalisation (src/extension.ts line 354)

`expression.replace(/(\r\n|\n|\r)/gm, "").replace(/\s/g, '').trim().toLocaleLowerCase()` -/

/-- `String.prototype.trim`: whitespace removed from both ends. -/
def trimBoth (l : List Char) : List Char :=
  ((l.dropWhile isJsWs).reverse.dropWhile isJsWs).reverse

/-- `String.prototype.trimEnd`: whitespace removed from the end only. -/
def trimEndOnly (l : List Char) : List Char :=
  (l.reverse.dropWhile isJsWs).reverse

/-- The `expressionEssential` normalisation of a fragment: delete line
breaks, delete all `\s` characters, trim, lower-case — in that order,
as the source chains the calls. -/
def normalizeFragment (s : List Char) : List Char :=
  (trimBoth ((s.filter (fun c => !isLineBreak c)).filter (fun c => !isJsWs c))).map lowerAscii

/-- Closed form of `normalizeFragment`: drop every whitespace character
and lower-case the rest. -/
def canonicalFragment (s : List Char) : List Char :=
  (s.filter (fun c => !isJsWs c)).map lowerAscii

/-- `expressionHash`: the fragment identity, `cyrb53` of the normalised
text at the default seed `0`. -/
def fragHash (s : List Char) : Nat :=
  cyrb53 (utf16Units (normalizeFragment s)) 0

/-- Two texts differ only in whitespace, line breaks, or letter case:
matched non-whitespace characters agree up to ASCII case, and either
side may interleave extra whitespace/line-break characters. -/
inductive CaseWsEquiv : List Char → List Char → Prop
  | nil : CaseWsEquiv [] []
  | consC {a b : Char} {as bs : List Char} :
      isJsWs a = false → isJsWs b = false → lowerAscii a = lowerAscii b →
      CaseWsEquiv as bs → CaseWsEquiv (a :: as) (b :: bs)
  | wsL {a : Char} {as bs : List Char} :
      isJsWs a = true → CaseWsEquiv as bs → CaseWsEquiv (a :: as) bs
  | wsR {b : Char} {as bs : List Char} :
      isJsWs b = true → CaseWsEquiv as bs → CaseWsEquiv as (b :: bs)

/-! ### `normalizeEnding` (src/extension.ts line 234) -/

/-- `normalizeEnding`: trim trailing whitespace, then append `';'`
unless the trimmed string already ends with it
(`trimmed[trimmed.length-1] === ';'`; on the empty string the index
yields `undefined` and the comparison is false). -/
def normalizeEnding (v : List Char) : List Char :=
  if (trimEndOnly v).get? ((trimEndOnly v).length - 1) = some ';'
  then trimEndOnly v
  else trimEndOnly v ++ [';']

/-! ### Fragment extraction `getHasqlContent` (src/extension.ts line 192) -/

/-- The start delimiter `HASKELL_HASQL = 'hasql\|'` (in a JS string
literal `\|` is the plain character `|`). -/
def startTok : List Char := ("hasql|").data

/-- The end delimiter `HASKELL_HASQL_END = '\|\]'`, i.e. `|]`. -/
def endTok : List Char := ("|]").data

/-- `line.indexOf(pat)`: index of the first occurrence of `pat`, if any. -/
def firstIdx (pat : List Char) : List Char → Option Nat
  | [] => if pat.isPrefixOf ([] : List Char) then some 0 else none
  | c :: t => if pat.isPrefixOf (c :: t) then some 0 else (firstIdx pat t).map (fun n => n + 1)

/-- A `vscode.Range` as produced by the scanner: start/end line and
column numbers.  (The scanner only builds ranges; `vscode.Range`'s
normalisation of reversed positions never fires on the well-formed
documents considered here.) -/
structure VsRange where
  startLine : Nat
  startCol : Nat
  endLine : Nat
  endCol : Nat
deriving DecidableEq, Repr

/-- The scanner state held across lines: `sqlStringBound` is `null`
until the first start delimiter is found (`initial`), the end token
while inside a fragment (`inside`, together with `sqlStartLineIndex`
and `startRangePosition`), and `''` after a fragment has been closed
(`closed`).  The final well-formedness test `sqlStringBound !== ''`
distinguishes `closed` from the two other states. -/
inductive ScanState
  | initial : ScanState
  | inside (sl sc : Nat) : ScanState
  | closed : ScanState
deriving DecidableEq, Repr

/-- One iteration of the scanner's line loop: while not inside a
fragment, search the line for the start delimiter and enter it; then —
in the same iteration, which is how same-line fragments close — search
the whole line for the end delimiter and emit a range. -/
def lineStep (l : List Char) (i : Nat) (st : ScanState) : ScanState × Option VsRange :=
  match
    match st with
    | ScanState.inside sl sc => ScanState.inside sl sc
    | _ =>
        match firstIdx startTok l with
        | some a => ScanState.inside i (a + startTok.length)
        | none => st
  with
  | ScanState.inside sl sc =>
      match firstIdx endTok l with
      | some e => (ScanState.closed, some ⟨sl, sc, i, e⟩)
      | none => (ScanState.inside sl sc, none)
  | s => (s, none)

/-- The scanner's loop over all lines, threading the state and
collecting emitted ranges in line order. -/
def scanCore : List (List Char) → Nat → ScanState → List VsRange × ScanState
  | [], _, st => ([], st)
  | l :: ls, i, st =>
      ((match (lineStep l i st).2 with
        | some r => r :: (scanCore ls (i + 1) (lineStep l i st).1).1
        | none => (scanCore ls (i + 1) (lineStep l i st).1).1),
       (scanCore ls (i + 1) (lineStep l i st).1).2)

/-- `getHasqlContent`: the collected ranges plus the well-formedness
flag `sqlStringBound === ''`, i.e. the scan ended in state `closed`. -/
def getHasqlContent (lines : List (List Char)) : List VsRange × Bool :=
  ((scanCore lines 0 ScanState.initial).1,
   match (scanCore lines 0 ScanState.initial).2 with
   | ScanState.closed => true
   | _ => false)

/-- A structural description of a document as this scanner understands
it: interleaved filler lines (no start delimiter), fragments that close
on their own start line, and fragments that span several lines, with
the expected spans accumulated in document order.  The final flag is
`true` when the document ends with an unterminated fragment.  The
side conditions on `firstIdx` say exactly that the delimiters occur
where the description claims and nowhere earlier, that a same-line
fragment's end delimiter follows its start delimiter, and that no
further start delimiter hides after a fragment's end delimiter on the
closing line — i.e. the document contains precisely the described
well-formed, non-nested regions. -/
inductive DocDesc : List (List Char) → List VsRange → Nat → Bool → Prop
  | nil (i : Nat) : DocDesc [] [] i false
  | openTail (i a : Nat) (l : List Char) (ms : List (List Char)) :
      firstIdx startTok l = some a →
      firstIdx endTok l = none →
      (∀ m ∈ ms, firstIdx endTok m = none) →
      DocDesc (l :: ms) [] i true
  | filler (i : Nat) (l : List Char) (ls : List (List Char)) (rs : List VsRange) (b : Bool) :
      firstIdx startTok l = none →
      DocDesc ls rs (i + 1) b →
      DocDesc (l :: ls) rs i b
  | sameLine (i a e : Nat) (l : List Char) (ls : List (List Char)) (rs : List VsRange) (b : Bool) :
      firstIdx startTok l = some a →
      firstIdx endTok l = some e →
      a + startTok.length ≤ e →
      firstIdx startTok (l.drop (e + endTok.length)) = none →
      DocDesc ls rs (i + 1) b →
      DocDesc (l :: ls) (⟨i, a + startTok.length, i, e⟩ :: rs) i b
  | multiLine (i a e : Nat) (l0 : List Char) (ms : List (List Char)) (le : List Char)
      (ls : List (List Char)) (rs : List VsRange) (b : Bool) :
      firstIdx startTok l0 = some a →
      firstIdx endTok l0 = none →
      (∀ m ∈ ms, firstIdx endTok m = none) →
      firstIdx endTok le = some e →
      firstIdx startTok (le.drop (e + endTok.length)) = none →
      DocDesc ls rs (i + ms.length + 2) b →
      DocDesc (l0 :: (ms ++ le :: ls)) (⟨i, a + startTok.length, i + ms.length + 1, e⟩ :: rs) i b

/-! ### The validation pass `runValidation` (src/extension.ts line 330)

The database is an external collaborator: each fragment's combined
check outcome (`syntaxError || explainError`, lines 358–368) is
abstracted as an oracle `check : Nat → Option DbErr` indexed by the
fragment's position.  `Promise.all` suspends only at database round
trips; the model fixes the sequential completion schedule, which
determines the order (not the content) of the collected diagnostics. -/

/-- `Array.prototype.join('\n')` / vscode's newline-joined `getText`. -/
def sepJoin (sep : List Char) : List (List Char) → List Char
  | [] => []
  | [c] => c
  | c :: cs => c ++ sep ++ sepJoin sep cs

/-- Clip the last line of a multi-line extract at the end column. -/
def clipLast : List (List Char) → Nat → List (List Char)
  | [], _ => []
  | [l], ec => [l.take ec]
  | l :: ls, ec => l :: clipLast ls ec

/-- `document.getText(range)`: the text between the range's start and
end positions, lines joined by a newline. -/
def getText (lines : List (List Char)) (r : VsRange) : List Char :=
  if r.startLine = r.endLine then
    ((lines.getD r.startLine []).take r.endCol).drop r.startCol
  else
    sepJoin (("\n").data)
      (clipLast (((lines.getD r.startLine []).drop r.startCol)
        :: ((lines.drop (r.startLine + 1)).take (r.endLine - r.startLine))) r.endCol)

/-- A captured `DatabaseError`: a message and an optional hint. -/
structure DbErr where
  message : List Char
  hint : Option (List Char)
deriving DecidableEq, Repr

/-- The diagnostic message of lines 370–374: hash line, error message
and hint, falsy (absent or empty) entries filtered out, joined by
newlines. -/
def diagMessage (h : Nat) (e : DbErr) : List Char :=
  sepJoin (("\n").data)
    (((("Query cyrb53 hash: ").data ++ (Nat.repr h).data)
        :: (if e.message.isEmpty then [] else [e.message]))
      ++ (match e.hint with
          | some t => if t.isEmpty then [] else [t]
          | none => []))

/-- The diagnostic pushed for a failing fragment: anchored at the
fragment's range, message built from the fragment identity and the
database error. -/
def fragDiag (lines : List (List Char)) (r : VsRange) (e : DbErr) : VsRange × List Char :=
  (r, diagMessage (fragHash (getText lines r)) e)

/-- `diagnosticsCurrent.push(...)` on a failing fragment, no push on a
passing one. -/
def pushDiag (acc : List (VsRange × List Char)) (o : Option (VsRange × List Char)) :
    List (VsRange × List Char) :=
  match o with
  | some d => acc ++ [d]
  | none => acc

/-- The `diagnosticsCurrent` array at the end of the pass: the code
pushes one diagnostic per failing fragment while walking the fragments
(lines 350–379). -/
def validationFold (lines : List (List Char)) (check : Nat → Option DbErr) :
    List (VsRange × List Char) :=
  ((getHasqlContent lines).1.enum).foldl
    (fun acc p => pushDiag acc ((check p.1).map (fun e => fragDiag lines p.2 e))) []

/-- Declarative description: exactly one diagnostic per failing
fragment, none for passing fragments, in document order. -/
def declDiags (lines : List (List Char)) (check : Nat → Option DbErr) :
    List (VsRange × List Char) :=
  ((getHasqlContent lines).1.enum).filterMap
    (fun p => (check p.1).map (fun e => fragDiag lines p.2 e))

/-- The effect of one `runValidation` pass on the document's entry in
the diagnostic collection: abort leaving it untouched when extraction
is not well-formed (lines 342–346), otherwise replace it with this
pass's diagnostics (line 381). -/
def runValidationModel (lines : List (List Char)) (check : Nat → Option DbErr)
    (prior : Option (List (VsRange × List Char))) : Option (List (VsRange × List Char)) :=
  if (getHasqlContent lines).2 then some (validationFold lines check) else prior

/-- A two-fragment document used to exercise the diagnostic-replacement
scenario. -/
def c5doc : List (List Char) :=
  [("a = [hasql| select 1 |]").data, ("b = [hasql| select 2 |]").data]

/-- An oracle under which fragment A (index 0) fails and fragment B
(index 1) passes. -/
def c5check : Nat → Option DbErr :=
  fun i => if i = 0 then some ⟨("syntax error").data, some (("add a cast").data)⟩ else none

/-! ### Parameter discovery and the explain-check rewriter
(src/extension.ts lines 253–328) -/

/-- The matches of the global regex `(\$[1-9][0-9]*)` in order: at a
`$` followed by a non-zero digit the (greedy) digit run is taken and
the scan resumes after it, otherwise the scan advances one character.
The fuel argument starts at the string length and dominates every
recursive call. -/
def findParamsGo : Nat → List Char → List (List Char)
  | 0, _ => []
  | _ + 1, [] => []
  | fuel + 1, c :: rest =>
      if c = '$' then
        match rest with
        | [] => []
        | d :: rest2 =>
            if isNzDigit d then
              ('$' :: d :: rest2.takeWhile isDigitC) :: findParamsGo fuel (rest2.dropWhile isDigitC)
            else findParamsGo fuel (d :: rest2)
      else findParamsGo fuel rest

/-- `[...expression.matchAll(/(\$[1-9][0-9]*)/g)].map(found => found[0])`. -/
def findParams (s : List Char) : List (List Char) :=
  findParamsGo s.length s

/-- `new Set(...).size`: the number of distinct positional-parameter
tokens in the fragment text. -/
def paramCount (s : List Char) : Nat :=
  (findParams s).dedup.length

/-- A JavaScript/JSON scalar as stored in the `defaultValues` override
table (`unknown` leaf values of the configuration). -/
inductive JSVal
  | null : JSVal
  | b (x : Bool) : JSVal
  | n (i : Int) : JSVal
  | s (t : List Char) : JSVal
deriving DecidableEq, Repr

/-- JavaScript truthiness of a scalar (`if (v) { ... }`). -/
def truthy : JSVal → Bool
  | JSVal.null => false
  | JSVal.b x => x
  | JSVal.n i => decide (i ≠ 0)
  | JSVal.s t => !t.isEmpty

/-- Object property lookup `obj[k]` on a numeric-keyed table modelled
as an association list (`undefined` when absent). -/
def lookupNum {α : Type} (d : List (Nat × α)) (k : Nat) : Option α :=
  (d.find? (fun e => e.1 == k)).map (fun e => e.2)

/-- `Array(parameters).fill(null).map((v, i) => predefinedValues[i+1] ? predefinedValues[i+1] : v)`
of `runExplainCheck` (lines 299–304): the bound parameter values, the
override value where one exists *and is truthy*, else `null`. -/
def explainParamValues (d : List (Nat × JSVal)) (n : Nat) : List JSVal :=
  (List.range n).map (fun i =>
    match lookupNum d (i + 1) with
    | some v => if truthy v then v else JSVal.null
    | none => JSVal.null)

/-- `Array(parameters).fill('unknown').map((v, i) => predefinedTypes[i+1] ? predefinedTypes[i+1] : v)`
of `runPrepareCheck` (lines 641–646): the declared parameter-type
names, the override where present and truthy (non-empty), else
`'unknown'`. -/
def prepareParamTypes (t : List (Nat × List Char)) (n : Nat) : List (List Char) :=
  (List.range n).map (fun i =>
    match lookupNum t (i + 1) with
    | some ty => if ty.isEmpty then ("unknown").data else ty
    | none => ("unknown").data)

/-- `acc.replace(new RegExp("\\$" ++ k, "gm"), rep)` with a literal
pattern `p0 :: ps`: global left-to-right replacement; a replaced
occurrence is not rescanned.  Fuel starts at the string length. -/
def replaceAllGo (p0 : Char) (ps rep : List Char) : Nat → List Char → List Char
  | 0, s => s
  | _ + 1, [] => []
  | fuel + 1, a :: s =>
      if (p0 :: ps).isPrefixOf (a :: s) then rep ++ replaceAllGo p0 ps rep fuel (s.drop ps.length)
      else a :: replaceAllGo p0 ps rep fuel s

def replaceAll (p0 : Char) (ps rep s : List Char) : List Char :=
  replaceAllGo p0 ps rep s.length s

/-- `normalizeEnding` followed by the `EXPLAIN` template of
`wrapExpressionInExplainCheck` (lines 253–262):
`("\nEXPLAIN\n" + normalized + "\n").trim()`. -/
def wrapExpressionInExplainCheck (v : List Char) : List Char :=
  trimBoth (("\nEXPLAIN\n").data ++ normalizeEnding v ++ ("\n").data)

/-- The token `$k`. -/
def patOf (k : Nat) : List Char :=
  '$' :: (Nat.repr k).data

/-- The replacement `$k::<type>`. -/
def typeAnno (k : Nat) (ty : List Char) : List Char :=
  patOf k ++ ("::").data ++ ty

/-- The `knownTypes.reduce(...)` of `runExplainCheck` (lines 305–309):
for each override entry rewrite every occurrence of `$k` in the test
expression to `$k::<type>` (keys enumerated in table order). -/
def applyTypeCasts (tc : List (Nat × List Char)) (q : List Char) : List Char :=
  tc.foldl (fun acc e => replaceAll '$' ((Nat.repr e.1).data) (typeAnno e.1 e.2) acc) q

/-- Concrete fragment for the C3 witness. -/
def c3expr : List Char := ("select $1, $10 from t where a = $2").data

/-- Its wrapped check statement, split at the occurrences of `$1`. -/
def c3parts : List (List Char) :=
  [("EXPLAIN\nselect ").data, (", ").data, ("0 from t where a = $2;").data]

/-! ### Override resolution `getSubstitutionsForDocument` (src/extension.ts line 64)

`Object.assign({}, casts[key] ?? {})` copies the per-file object's own
enumerable entries into a brand-new object; entry *values* (the nested
per-parameter objects) are JS references and stay shared, so the model
keeps them opaque (`α`) and represents objects behind heap addresses:
the override table maps workspace-relative paths to addresses of
per-file objects, and the copy allocates a fresh address.  Caller-side
mutation of the returned mapping — property assignment on the copied
object — is a heap write at that fresh address. -/

/-- A per-file override object: fragment identity (`cyrb53` value) to
the leaf per-parameter mapping, kept opaque. -/
abbrev FileEntry (α : Type) := List (Nat × α)

/-- `casts[key]`: address of the per-file object, `undefined` if the
path is absent. -/
def ovLookup (table : List (String × Nat)) (key : String) : Option Nat :=
  (table.find? (fun e => e.1 == key)).map (fun e => e.2)

def heapGet {α : Type} (heap : List (FileEntry α)) (a : Nat) : FileEntry α :=
  heap.getD a []

/-- `Object.assign({}, casts[key] ?? {})`: allocate a fresh object at
the end of the heap holding a copy of the per-file object's entries
(or no entries when the path is absent), and return its address. -/
def getSubstitutionsForDocument {α : Type} (table : List (String × Nat))
    (heap : List (FileEntry α)) (key : String) : Nat × List (FileEntry α) :=
  (heap.length,
   heap ++ [match ovLookup table key with
            | some a => heapGet heap a
            | none => []])

/-- JS property assignment `obj[k] = v` on a per-file object. -/
def setKey {α : Type} (fo : FileEntry α) (k : Nat) (v : α) : FileEntry α :=
  if fo.any (fun e => e.1 == k) then fo.map (fun e => if e.1 == k then (k, v) else e)
  else fo ++ [(k, v)]

def heapSet {α : Type} (heap : List (FileEntry α)) (a : Nat) (fo : FileEntry α) :
    List (FileEntry α) :=
  heap.set a fo

/-- `typeCasts[expressionHash]` (src/extension.ts line 356):
`undefined` when the fragment identity is absent, which the caller's
`?? {}` turns into the empty mapping. -/
def lookupHash {α : Type} (fo : FileEntry α) (h : Nat) : Option α :=
  (fo.find? (fun e => e.1 == h)).map (fun e => e.2)

/-- Concrete override table and heap for the C9 witness: one file
`Statements.hs` whose object (address `0`) carries one identity. -/
def c9table : List (String × Nat) := [(("Statements.hs"), 0)]

def c9heap : List (FileEntry (List (Nat × String))) :=
  [[(1147568695465191, [(1, ("boolean"))])]]

/-! ### Theorems -/

theorem cyrb53Loop_lt (s : List Nat) :
    ∀ h : Nat × Nat, h.1 < 4294967296 → h.2 < 4294967296 →
      (cyrb53Loop s h).1 < 4294967296 ∧ (cyrb53Loop s h).2 < 4294967296 := by
  induction s with
  | nil => exact fun h h1 h2 => ⟨h1, h2⟩
  | cons ch rest ih =>
      intro h _ _
      obtain ⟨a, b⟩ := h
      exact ih _ (Nat.mod_lt _ (by norm_num)) (Nat.mod_lt _ (by norm_num))

theorem cyrb53Final_fst_lt (h : Nat × Nat) : (cyrb53Final h).1 < 4294967296 := by
  have : (4294967296 : Nat) = 2 ^ 32 := by norm_num
  refine this ▸ Nat.xor_lt_two_pow ?_ ?_ <;>
    exact this ▸ Nat.mod_lt _ (by norm_num)

theorem cyrb53_lt (s : List Nat) (seed : Nat) : cyrb53 s seed < 9007199254740992 := by
  unfold cyrb53
  have h1 := cyrb53Final_fst_lt (cyrb53Loop s (cyrb53Init seed))
  have h2 : 2097151 &&& (cyrb53Final (cyrb53Loop s (cyrb53Init seed))).2 ≤ 2097151 :=
    Nat.and_le_left
  omega

/-- Claim C1: `cyrb53` is pure and deterministic, its result is an
unsigned integer strictly below `2 ^ 53`, it is the two-lane imul
multiply-xor mix with lanes seeded from `0xdeadbeef` and `0x41c6ce57`
XORed with the seed and finalised by the cross-lane avalanche, the low
32 bits of the result being the finalised first lane (`h1 >>> 0`) and
the high bits the 21 masked bits of the finalised second lane
(`2097151 & h2`); `cyrb53 "" 0` is the fixed constant
`3338908027751811`. -/
theorem c1_cyrb53_pure_bounded_two_lane :
    ∀ (s : List Nat) (seed : Nat),
      cyrb53 s seed = cyrb53 s seed
      ∧ cyrb53 s seed < 2 ^ 53
      ∧ cyrb53 s seed % 4294967296 = (cyrb53Final (cyrb53Loop s (cyrb53Init seed))).1
      ∧ cyrb53 s seed / 4294967296 = 2097151 &&& (cyrb53Final (cyrb53Loop s (cyrb53Init seed))).2
      ∧ cyrb53 [] 0 = 3338908027751811 := by
  intro s seed
  have hlt := cyrb53_lt s seed
  have hf1 := cyrb53Final_fst_lt (cyrb53Loop s (cyrb53Init seed))
  refine ⟨rfl, by norm_num [hlt], ?_, ?_, by decide⟩
  · show (4294967296 * _ + _) % 4294967296 = _
    rw [Nat.mul_add_mod, Nat.mod_eq_of_lt hf1]
  · show (4294967296 * _ + _) / 4294967296 = _
    rw [Nat.mul_add_div (by norm_num), Nat.div_eq_of_lt hf1, Nat.add_zero]

theorem toNat_charOfNat {n : Nat} (h : n < 55296) : (Char.ofNat n).toNat = n := by
  rw [Char.ofNat, dif_pos (Or.inl h)]
  rfl

theorem isJsWs_lowerAscii (c : Char) (h : isJsWs c = false) :
    isJsWs (lowerAscii c) = false := by
  unfold lowerAscii
  split
  · next hr =>
      have ht : (Char.ofNat (c.toNat + 32)).toNat = c.toNat + 32 :=
        toNat_charOfNat (by omega)
      simp only [isJsWs, ht, decide_eq_false_iff_not]
      omega
  · exact h

theorem lowerAscii_idem (c : Char) : lowerAscii (lowerAscii c) = lowerAscii c := by
  unfold lowerAscii
  split
  · next hr =>
      have ht : (Char.ofNat (c.toNat + 32)).toNat = c.toNat + 32 :=
        toNat_charOfNat (by omega)
      rw [if_neg (by omega)]
  · rfl

theorem isLineBreak_isJsWs (c : Char) (h : isLineBreak c = true) : isJsWs c = true := by
  simp only [isLineBreak, decide_eq_true_eq] at h
  simp only [isJsWs, decide_eq_true_eq]
  omega

theorem dropWhile_isJsWs_of_none (l : List Char) (h : ∀ c ∈ l, isJsWs c = false) :
    l.dropWhile isJsWs = l := by
  cases l with
  | nil => rfl
  | cons a t =>
      rw [List.dropWhile_cons, if_neg]
      simp [h a (List.mem_cons_self a t)]

theorem trimBoth_of_none (l : List Char) (h : ∀ c ∈ l, isJsWs c = false) :
    trimBoth l = l := by
  unfold trimBoth
  rw [dropWhile_isJsWs_of_none l h,
    dropWhile_isJsWs_of_none l.reverse (fun c hc => h c (List.mem_reverse.mp hc)),
    List.reverse_reverse]

theorem normalizeFragment_eq_canonical (s : List Char) :
    normalizeFragment s = canonicalFragment s := by
  unfold normalizeFragment canonicalFragment
  rw [List.filter_filter]
  have hpred : (s.filter fun a => !isJsWs a && !isLineBreak a) = s.filter fun c => !isJsWs c := by
    apply List.filter_congr
    intro c _
    cases hws : isJsWs c with
    | true => simp
    | false =>
        cases hlb : isLineBreak c with
        | true => rw [isLineBreak_isJsWs c hlb] at hws; cases hws
        | false => simp
  rw [hpred, trimBoth_of_none]
  intro c hc
  have := List.of_mem_filter hc
  simpa using this

theorem canonical_idem (s : List Char) :
    canonicalFragment (canonicalFragment s) = canonicalFragment s := by
  unfold canonicalFragment
  rw [List.filter_map]
  have h1 : ((s.filter fun c => !isJsWs c).filter ((fun c => !isJsWs c) ∘ lowerAscii))
      = s.filter fun c => !isJsWs c := by
    apply List.filter_eq_self.mpr
    intro a ha
    have hws : isJsWs a = false := by simpa using List.of_mem_filter ha
    simp [Function.comp, isJsWs_lowerAscii a hws]
  rw [h1, List.map_map]
  have h2 : lowerAscii ∘ lowerAscii = lowerAscii := funext lowerAscii_idem
  rw [h2]

theorem canonical_cons_ws {a : Char} {as : List Char} (h : isJsWs a = true) :
    canonicalFragment (a :: as) = canonicalFragment as := by
  simp [canonicalFragment, List.filter_cons, h]

theorem canonical_cons_nws {a : Char} {as : List Char} (h : isJsWs a = false) :
    canonicalFragment (a :: as) = lowerAscii a :: canonicalFragment as := by
  simp [canonicalFragment, List.filter_cons, h]

theorem equiv_canonical {s t : List Char} (h : CaseWsEquiv s t) :
    canonicalFragment s = canonicalFragment t := by
  induction h with
  | nil => rfl
  | consC ha hb hl _ ih =>
      rw [canonical_cons_nws ha, canonical_cons_nws hb, hl, ih]
  | wsL ha _ ih => rw [canonical_cons_ws ha, ih]
  | wsR hb _ ih => rw [canonical_cons_ws hb, ih]

/-- Claim C4: fragment-text normalisation (strip line breaks, strip
whitespace, trim, lower-case) is idempotent, and any two fragment texts
that differ only in whitespace, line breaks, or letter case have equal
normalised texts and therefore equal fragment identities
(`cyrb53` of the normalised text). -/
theorem c4_normalization_idempotent_hash_stable :
    (∀ s, normalizeFragment (normalizeFragment s) = normalizeFragment s)
    ∧ ∀ s t, CaseWsEquiv s t →
        normalizeFragment s = normalizeFragment t ∧ fragHash s = fragHash t := by
  constructor
  · intro s
    simp only [normalizeFragment_eq_canonical]
    exact canonical_idem s
  · intro s t h
    have hn : normalizeFragment s = normalizeFragment t := by
      rw [normalizeFragment_eq_canonical, normalizeFragment_eq_canonical]
      exact equiv_canonical h
    exact ⟨hn, by unfold fragHash; rw [hn]⟩

theorem c4_witness :
    normalizeFragment (("SELECT 1").data) = normalizeFragment (("select\n1").data)
    ∧ fragHash (("SELECT 1").data) = fragHash (("select\n1").data) := by
  have hd : CaseWsEquiv (("SELECT 1").data) (("select\n1").data) :=
    CaseWsEquiv.consC (by decide) (by decide) (by decide)
      (CaseWsEquiv.consC (by decide) (by decide) (by decide)
        (CaseWsEquiv.consC (by decide) (by decide) (by decide)
          (CaseWsEquiv.consC (by decide) (by decide) (by decide)
            (CaseWsEquiv.consC (by decide) (by decide) (by decide)
              (CaseWsEquiv.consC (by decide) (by decide) (by decide)
                (CaseWsEquiv.wsL (by decide)
                  (CaseWsEquiv.wsR (by decide)
                    (CaseWsEquiv.consC (by decide) (by decide) (by decide)
                      CaseWsEquiv.nil))))))))
  exact c4_normalization_idempotent_hash_stable.2 _ _ hd

/-- Claim C8: `normalizeEnding` returns the trailing-whitespace-trimmed
string, appending the terminator `';'` exactly when the trimmed string
does not already end in `';'`; a trimmed fragment already ending in the
terminator is returned untouched, and the result always ends in `';'`. -/
theorem c8_normalizeEnding_terminator :
    ∀ v : List Char,
      ((trimEndOnly v).getLast? = some ';' → normalizeEnding v = trimEndOnly v)
      ∧ ((trimEndOnly v).getLast? ≠ some ';' → normalizeEnding v = trimEndOnly v ++ [';'])
      ∧ (normalizeEnding v).getLast? = some ';' := by
  intro v
  unfold normalizeEnding
  rw [← List.getLast?_eq_get?]
  by_cases h : (trimEndOnly v).getLast? = some ';'
  · rw [if_pos h]
    exact ⟨fun _ => rfl, fun hn => absurd h hn, h⟩
  · rw [if_neg h]
    exact ⟨fun hp => absurd hp h, fun _ => rfl, List.getLast?_concat _⟩

theorem c8_witness :
    normalizeEnding (("select 1;  ").data) = trimEndOnly (("select 1;  ").data)
    ∧ normalizeEnding (("select 1").data) = trimEndOnly (("select 1").data) ++ [';']
    ∧ (normalizeEnding (("select 1").data)).getLast? = some ';' := by
  refine ⟨(c8_normalizeEnding_terminator (("select 1;  ").data)).1 (by decide),
    (c8_normalizeEnding_terminator (("select 1").data)).2.1 (by decide),
    (c8_normalizeEnding_terminator (("select 1").data)).2.2⟩

theorem lineStep_outside_none {l : List Char} {i : Nat} {st : ScanState}
    (hst : st = ScanState.initial ∨ st = ScanState.closed)
    (h : firstIdx startTok l = none) : lineStep l i st = (st, none) := by
  rcases hst with h' | h' <;> subst h' <;> simp [lineStep, h]

theorem lineStep_outside_close {l : List Char} {i a e : Nat} {st : ScanState}
    (hst : st = ScanState.initial ∨ st = ScanState.closed)
    (ha : firstIdx startTok l = some a) (he : firstIdx endTok l = some e) :
    lineStep l i st = (ScanState.closed, some ⟨i, a + startTok.length, i, e⟩) := by
  rcases hst with h' | h' <;> subst h' <;> simp [lineStep, ha, he]

theorem lineStep_outside_open {l : List Char} {i a : Nat} {st : ScanState}
    (hst : st = ScanState.initial ∨ st = ScanState.closed)
    (ha : firstIdx startTok l = some a) (he : firstIdx endTok l = none) :
    lineStep l i st = (ScanState.inside i (a + startTok.length), none) := by
  rcases hst with h' | h' <;> subst h' <;> simp [lineStep, ha, he]

theorem lineStep_inside_close {l : List Char} {i sl sc e : Nat}
    (he : firstIdx endTok l = some e) :
    lineStep l i (ScanState.inside sl sc) = (ScanState.closed, some ⟨sl, sc, i, e⟩) := by
  simp [lineStep, he]

theorem lineStep_inside_stay {l : List Char} {i sl sc : Nat}
    (he : firstIdx endTok l = none) :
    lineStep l i (ScanState.inside sl sc) = (ScanState.inside sl sc, none) := by
  simp [lineStep, he]

theorem scanCore_append (xs ys : List (List Char)) :
    ∀ (i : Nat) (st : ScanState),
      scanCore (xs ++ ys) i st =
        ((scanCore xs i st).1 ++ (scanCore ys (i + xs.length) (scanCore xs i st).2).1,
         (scanCore ys (i + xs.length) (scanCore xs i st).2).2) := by
  induction xs with
  | nil => intro i st; simp [scanCore]
  | cons l xs ih =>
      intro i st
      have harith : i + (l :: xs).length = (i + 1) + xs.length := by
        simp [List.length_cons]; omega
      simp only [List.cons_append, scanCore, harith]
      cases (lineStep l i st).2 <;> simp [ih]

theorem scanCore_inside_no_end (ms : List (List Char)) :
    ∀ (i sl sc : Nat), (∀ m ∈ ms, firstIdx endTok m = none) →
      scanCore ms i (ScanState.inside sl sc) = ([], ScanState.inside sl sc) := by
  induction ms with
  | nil => intro i sl sc _; rfl
  | cons m ms ih =>
      intro i sl sc h
      have hm : firstIdx endTok m = none := h m (List.mem_cons_self m ms)
      simp only [scanCore, lineStep_inside_stay hm]
      simpa using ih (i + 1) sl sc (fun x hx => h x (List.mem_cons_of_mem m hx))

theorem scanDesc {lines : List (List Char)} {rs : List VsRange} {i : Nat} {b : Bool}
    (h : DocDesc lines rs i b) :
    ∀ st, st = ScanState.initial ∨ st = ScanState.closed →
      (scanCore lines i st).1 = rs
      ∧ (b = true → ∃ sl sc, (scanCore lines i st).2 = ScanState.inside sl sc)
      ∧ (b = false → (scanCore lines i st).2 = (if rs.isEmpty then st else ScanState.closed)) := by
  induction h with
  | nil i => exact fun st _ => ⟨rfl, by simp [scanCore], by simp [scanCore]⟩
  | openTail i a l ms ha he hms =>
      intro st hst
      simp only [scanCore, lineStep_outside_open hst ha he,
        scanCore_inside_no_end ms (i + 1) i (a + startTok.length) hms]
      exact ⟨by simp, fun _ => ⟨i, a + startTok.length, by simp⟩, by simp⟩
  | filler i l ls rs b hs _ ih =>
      intro st hst
      simpa only [scanCore, lineStep_outside_none hst hs] using ih st hst
  | sameLine i a e l ls rs b ha he _ _ _ ih =>
      intro st hst
      have ihc := ih ScanState.closed (Or.inr rfl)
      simp only [scanCore, lineStep_outside_close hst ha he]
      refine ⟨by rw [ihc.1], fun hb => ihc.2.1 hb, fun hb => ?_⟩
      rw [ihc.2.2 hb]
      by_cases hrs : rs.isEmpty <;> simp [hrs]
  | multiLine i a e l0 ms le ls rs b ha he0 hms he hpost _ ih =>
      intro st hst
      have h2 : i + 1 + ms.length + 1 = i + ms.length + 2 := by omega
      have h1 : i + 1 + ms.length = i + ms.length + 1 := by omega
      have ihc := ih ScanState.closed (Or.inr rfl)
      simp only [scanCore, lineStep_outside_open hst ha he0]
      rw [scanCore_append ms (le :: ls) (i + 1) (ScanState.inside i (a + startTok.length)),
        scanCore_inside_no_end ms (i + 1) i (a + startTok.length) hms]
      simp only [scanCore, lineStep_inside_close he, h2, h1, List.nil_append]
      refine ⟨by rw [ihc.1], fun hb => ihc.2.1 hb, fun hb => ?_⟩
      rw [ihc.2.2 hb]
      by_cases hrs : rs.isEmpty <;> simp [hrs]

/-- Claim C2, amended: for a document containing `N ≥ 1` well-formed,
non-nested delimited regions — same-line or multi-line, with no further
start delimiter after a region's end delimiter on its closing line —
extraction returns exactly those `N` spans in document order with
well-formed `true`; and when end-of-input is reached inside a fragment,
the flag is `false` and the already-collected spans are returned.
(For `N = 0` the code returns `false`, not `true`: the scanner's bound
stays `null`; see the counterexample.) -/
theorem c2_extraction_spans_wellformed :
    (∀ (lines : List (List Char)) (rs : List VsRange),
        DocDesc lines rs 0 false → rs ≠ [] → getHasqlContent lines = (rs, true))
    ∧ (∀ (lines : List (List Char)) (rs : List VsRange),
        DocDesc lines rs 0 true → getHasqlContent lines = (rs, false)) := by
  constructor
  · intro lines rs h hne
    have hs := scanDesc h ScanState.initial (Or.inl rfl)
    have h2 := hs.2.2 rfl
    rw [if_neg (by simpa [List.isEmpty_iff] using hne)] at h2
    unfold getHasqlContent
    rw [hs.1, h2]
  · intro lines rs h
    have hs := scanDesc h ScanState.initial (Or.inl rfl)
    obtain ⟨sl, sc, h2⟩ := hs.2.1 rfl
    unfold getHasqlContent
    rw [hs.1, h2]

/-- Claim C2, counterexample to the claim as stated: the document
`["x"]` contains zero well-formed regions (it is all filler), yet
extraction reports well-formed `false`, not `true`; moreover the
single line `hasql| a |] hasql| b |]` contains two well-formed regions
but extraction returns only one span, because the scanner never
rescans the remainder of a closing line. -/
theorem c2_counterexample :
    (DocDesc [("x").data] [] 0 false ∧ getHasqlContent [("x").data] = ([], false))
    ∧ getHasqlContent [("hasql| a |] hasql| b |]").data] = ([⟨0, 6, 0, 9⟩], true) := by
  refine ⟨⟨?_, by decide⟩, by decide⟩
  exact DocDesc.filler 0 _ [] [] false (by decide) (DocDesc.nil 1)

theorem c2_witness :
    getHasqlContent
        [("hasql| a |]").data, ("zz").data, ("hasql| b").data, ("c").data, ("d |] e").data]
      = ([⟨0, 6, 0, 9⟩, ⟨2, 6, 4, 2⟩], true)
    ∧ getHasqlContent [("hasql| q").data] = ([], false) := by
  have hd : DocDesc
      [("hasql| a |]").data, ("zz").data, ("hasql| b").data, ("c").data, ("d |] e").data]
      [⟨0, 6, 0, 9⟩, ⟨2, 6, 4, 2⟩] 0 false :=
    DocDesc.sameLine 0 0 9 _ _ _ false (by decide) (by decide) (by decide) (by decide)
      (DocDesc.filler 1 _ _ _ false (by decide)
        (DocDesc.multiLine 2 0 2 _ [("c").data] _ [] [] false (by decide) (by decide)
          (by decide) (by decide) (by decide) (DocDesc.nil 5)))
  exact ⟨c2_extraction_spans_wellformed.1 _ _ hd (by decide),
    c2_extraction_spans_wellformed.2 _ _
      (DocDesc.openTail 0 0 _ [] (by decide) (by decide) (by decide))⟩

theorem foldl_pushDiag_eq_filterMap {α : Type} (g : α → Option (VsRange × List Char)) :
    ∀ (l : List α) (acc : List (VsRange × List Char)),
      l.foldl (fun acc x => pushDiag acc (g x)) acc = acc ++ l.filterMap g := by
  intro l
  induction l with
  | nil => intro acc; simp
  | cons x l ih =>
      intro acc
      cases hg : g x with
      | none =>
          simp only [List.foldl_cons, List.filterMap_cons, hg]
          exact ih acc
      | some d =>
          simp only [List.foldl_cons, List.filterMap_cons, hg]
          rw [show pushDiag acc (some d) = acc ++ [d] from rfl, ih (acc ++ [d]),
            List.append_assoc]
          rfl

theorem length_filterMap_countP {α β : Type} (f : α → Option β) (l : List α) :
    (l.filterMap f).length = l.countP (fun x => (f x).isSome) := by
  induction l with
  | nil => rfl
  | cons x l ih =>
      rw [List.filterMap_cons, List.countP_cons]
      cases hf : f x <;> simp [hf, ih]

/-- Claim C5: after a validation pass over a well-formed document, the
document's diagnostic entry is replaced by exactly the diagnostics of
that pass — one per failing fragment (range plus message built from the
fragment identity, error message and optional hint), none for a
passing fragment, regardless of the prior diagnostics; their number is
the number of failing fragments. -/
theorem c5_diagnostics_exactly_replaced :
    ∀ (lines : List (List Char)) (check : Nat → Option DbErr)
      (prior : Option (List (VsRange × List Char))),
      (getHasqlContent lines).2 = true →
      runValidationModel lines check prior = some (declDiags lines check)
      ∧ (declDiags lines check).length
          = ((getHasqlContent lines).1.enum).countP (fun p => (check p.1).isSome) := by
  intro lines check prior hwf
  constructor
  · unfold runValidationModel
    rw [if_pos (by simp [hwf])]
    unfold validationFold declDiags
    rw [foldl_pushDiag_eq_filterMap, List.nil_append]
  · unfold declDiags
    rw [length_filterMap_countP]
    simp only [Option.isSome_map']

/-- Claim C6: when extraction reports the document as not well-formed,
the validation pass aborts without touching the diagnostic entry at
all — the prior diagnostics, whatever they were, remain. -/
theorem c6_malformed_aborts_untouched :
    ∀ (lines : List (List Char)) (check : Nat → Option DbErr)
      (prior : Option (List (VsRange × List Char))),
      (getHasqlContent lines).2 = false →
      runValidationModel lines check prior = prior := by
  intro lines check prior h
  simp [runValidationModel, h]

theorem docDesc_of_no_start (lines : List (List Char))
    (h : ∀ l ∈ lines, firstIdx startTok l = none) :
    ∀ i, DocDesc lines [] i false := by
  induction lines with
  | nil => exact fun i => DocDesc.nil i
  | cons l ls ih =>
      intro i
      exact DocDesc.filler i l ls [] false (h l (List.mem_cons_self l ls))
        (ih (fun x hx => h x (List.mem_cons_of_mem l hx)) (i + 1))

/-- Claim C10: a document with no start delimiter on any line (zero
fragments) extracts to the empty span list with well-formed flag
`false`, so a validation pass over it aborts and never clears or
replaces the document's diagnostics. -/
theorem c10_fragment_free_not_wellformed :
    ∀ lines : List (List Char),
      (∀ l ∈ lines, firstIdx startTok l = none) →
      getHasqlContent lines = ([], false)
      ∧ ∀ (check : Nat → Option DbErr) (prior : Option (List (VsRange × List Char))),
          runValidationModel lines check prior = prior := by
  intro lines h
  have hs := scanDesc (docDesc_of_no_start lines h 0) ScanState.initial (Or.inl rfl)
  have h2 := hs.2.2 rfl
  simp only [List.isEmpty_nil, if_pos] at h2
  have hg : getHasqlContent lines = ([], false) := by
    unfold getHasqlContent
    rw [hs.1, h2]
  exact ⟨hg, fun check prior => by simp [runValidationModel, hg]⟩

theorem c5_witness :
    (getHasqlContent c5doc).2 = true
    ∧ runValidationModel c5doc c5check none = some (declDiags c5doc c5check)
    ∧ (declDiags c5doc c5check).length = 1
    ∧ runValidationModel c5doc (fun _ => none) (runValidationModel c5doc c5check none)
        = some (declDiags c5doc (fun _ => none))
    ∧ (declDiags c5doc (fun _ => none)).length = 0 := by
  refine ⟨by decide, (c5_diagnostics_exactly_replaced c5doc c5check none (by decide)).1, ?_,
    (c5_diagnostics_exactly_replaced c5doc (fun _ => none)
      (runValidationModel c5doc c5check none) (by decide)).1, ?_⟩
  · rw [(c5_diagnostics_exactly_replaced c5doc c5check none (by decide)).2]; decide
  · rw [(c5_diagnostics_exactly_replaced c5doc (fun _ => none) none (by decide)).2]; decide

theorem c6_witness :
    runValidationModel [("a = [hasql| select").data] (fun _ => none)
        (some [(⟨0, 0, 0, 1⟩, ("stale diagnostic").data)])
      = some [(⟨0, 0, 0, 1⟩, ("stale diagnostic").data)] :=
  c6_malformed_aborts_untouched _ _ _ (by decide)

theorem c10_witness :
    getHasqlContent [("module Main where").data, ("main = pure ()").data] = ([], false)
    ∧ runValidationModel [("module Main where").data, ("main = pure ()").data]
        (fun _ => none) (some []) = some [] :=
  ⟨(c10_fragment_free_not_wellformed _ (by decide)).1,
   (c10_fragment_free_not_wellformed _ (by decide)).2 _ _⟩

/-- Claim C7: the number of positional parameter slots supplied to the
explain/prepare check equals the number of distinct `$N` tokens in the
raw fragment text — repeated occurrences counted once; for a fragment
containing `$1`, `$2` and `$1` again that count is `2`, not `3`. -/
theorem c7_distinct_parameter_count :
    (∀ (expr : List Char) (d : List (Nat × JSVal)),
        (explainParamValues d (paramCount expr)).length = (findParams expr).dedup.length)
    ∧ (∀ (expr : List Char) (t : List (Nat × List Char)),
        (prepareParamTypes t (paramCount expr)).length = (findParams expr).dedup.length)
    ∧ findParams (("select $1, $2 from t where a = $1").data)
        = [("$1").data, ("$2").data, ("$1").data]
    ∧ paramCount (("select $1, $2 from t where a = $1").data) = 2 := by
  refine ⟨fun expr d => ?_, fun expr t => ?_, by decide, by decide⟩
  · unfold explainParamValues paramCount
    rw [List.length_map, List.length_range]
  · unfold prepareParamTypes paramCount
    rw [List.length_map, List.length_range]

theorem firstIdx_cons_none {pat : List Char} {c : Char} {t : List Char}
    (h : firstIdx pat (c :: t) = none) :
    pat.isPrefixOf (c :: t) = false ∧ firstIdx pat t = none := by
  cases hp : pat.isPrefixOf (c :: t) with
  | true => simp [firstIdx, hp] at h
  | false =>
      simp only [firstIdx, hp, Bool.false_eq_true, if_false] at h
      exact ⟨rfl, Option.map_eq_none'.mp h⟩

theorem isPrefixOf_false_of_firstIdx_none {pat s : List Char} (h : firstIdx pat s = none) :
    pat.isPrefixOf s = false := by
  cases s with
  | nil =>
      cases hp : pat.isPrefixOf ([] : List Char) with
      | true => simp [firstIdx, hp] at h
      | false => rfl
  | cons c t => exact (firstIdx_cons_none h).1

theorem prefix_of_append_of_le {pat c x : List Char} (h : pat <+: c ++ x)
    (hl : pat.length ≤ c.length) : pat <+: c := by
  rw [List.prefix_iff_eq_take] at h ⊢
  rwa [List.take_append_eq_append_take, Nat.sub_eq_zero_of_le hl, List.take_zero,
    List.append_nil] at h

theorem not_prefix_mid {p0 : Char} {ps c t : List Char}
    (hps : p0 ∉ ps) (hc : firstIdx (p0 :: ps) c = none) (hne : c ≠ []) :
    ¬ ((p0 :: ps) <+: c ++ (p0 :: ps) ++ t) := by
  intro hpre
  by_cases hlen : (p0 :: ps).length ≤ c.length
  · have h1 : (p0 :: ps) <+: c :=
      prefix_of_append_of_le (by rwa [List.append_assoc] at hpre) hlen
    have h2 := List.isPrefixOf_iff_prefix.mpr h1
    rw [isPrefixOf_false_of_firstIdx_none hc] at h2
    cases h2
  · have hclen : c.length < (p0 :: ps).length := Nat.lt_of_not_le hlen
    have hpre' : (p0 :: ps) <+: c ++ ((p0 :: ps) ++ t) := by
      rwa [List.append_assoc] at hpre
    have e1 := hpre'.getElem hclen
    have hq0 : (c ++ ((p0 :: ps) ++ t))[c.length]? = some p0 := by
      rw [List.getElem?_append_right (Nat.le_refl c.length), Nat.sub_self]
      simp
    have hlt : c.length < (c ++ ((p0 :: ps) ++ t)).length := by
      simp only [List.length_append, List.length_cons]
      omega
    rw [List.getElem?_eq_getElem hlt] at hq0
    have hval : (p0 :: ps)[c.length] = p0 := by
      rw [e1]
      exact Option.some.inj hq0
    obtain ⟨m, hm⟩ : ∃ m, c.length = m + 1 := by
      cases hcl : c.length with
      | zero => exact absurd (List.length_eq_zero.mp hcl) hne
      | succ m => exact ⟨m, rfl⟩
    have hq2 : (p0 :: ps)[c.length]? = some p0 := by
      rw [List.getElem?_eq_getElem hclen, hval]
    rw [hm, List.getElem?_cons_succ] at hq2
    exact hps (List.getElem?_mem hq2)

theorem replaceAllGo_fuel_invariant (p0 : Char) (ps rep : List Char) :
    ∀ (f1 f2 : Nat) (s : List Char), s.length ≤ f1 → s.length ≤ f2 →
      replaceAllGo p0 ps rep f1 s = replaceAllGo p0 ps rep f2 s := by
  intro f1
  induction f1 with
  | zero =>
      intro f2 s h1 _
      have hs : s = [] := List.length_eq_zero.mp (Nat.le_zero.mp h1)
      subst hs
      cases f2 <;> rfl
  | succ f ih =>
      intro f2 s h1 h2
      cases s with
      | nil => cases f2 <;> rfl
      | cons a s =>
          cases f2 with
          | zero => simp at h2
          | succ f2' =>
              simp only [replaceAllGo]
              by_cases hp : (p0 :: ps).isPrefixOf (a :: s) = true
              · rw [if_pos hp, if_pos hp]
                congr 1
                exact ih f2' (s.drop ps.length)
                  (by rw [List.length_drop]; simp at h1; omega)
                  (by rw [List.length_drop]; simp at h2; omega)
              · rw [if_neg hp, if_neg hp]
                congr 1
                exact ih f2' s (by simp at h1; omega) (by simp at h2; omega)

theorem replaceAllGo_no_occ (p0 : Char) (ps rep : List Char) :
    ∀ (fuel : Nat) (s : List Char), firstIdx (p0 :: ps) s = none →
      replaceAllGo p0 ps rep fuel s = s := by
  intro fuel
  induction fuel with
  | zero => intro s _; rfl
  | succ f ih =>
      intro s h
      cases s with
      | nil => rfl
      | cons a t =>
          obtain ⟨hp, ht⟩ := firstIdx_cons_none h
          simp only [replaceAllGo]
          rw [if_neg (by simp [hp]), ih t ht]

theorem replaceAll_no_occ {p0 : Char} {ps rep s : List Char}
    (h : firstIdx (p0 :: ps) s = none) : replaceAll p0 ps rep s = s :=
  replaceAllGo_no_occ p0 ps rep s.length s h

theorem replaceAllGo_seg (p0 : Char) (ps rep : List Char) (hps : p0 ∉ ps) :
    ∀ (c : List Char) (fuel : Nat) (t : List Char),
      (c ++ (p0 :: ps) ++ t).length ≤ fuel →
      firstIdx (p0 :: ps) c = none →
      replaceAllGo p0 ps rep fuel (c ++ (p0 :: ps) ++ t)
        = c ++ rep ++ replaceAllGo p0 ps rep (fuel - c.length - 1) t := by
  intro c
  induction c with
  | nil =>
      intro fuel t hf _
      cases fuel with
      | zero => simp [List.length_append] at hf
      | succ f =>
          have hstep : ([] : List Char) ++ (p0 :: ps) ++ t = p0 :: (ps ++ t) := by simp
          rw [hstep]
          simp only [replaceAllGo]
          rw [if_pos (show (p0 :: ps).isPrefixOf (p0 :: (ps ++ t)) = true from
            List.isPrefixOf_iff_prefix.mpr (List.prefix_append (p0 :: ps) t))]
          rw [show List.drop ps.length (ps ++ t) = t from List.drop_left ps t]
          simp
  | cons a c' ih =>
      intro fuel t hf hc
      cases fuel with
      | zero => simp [List.length_append] at hf
      | succ f =>
          obtain ⟨hp, hc'⟩ := firstIdx_cons_none hc
          have hnp : ¬ ((p0 :: ps).isPrefixOf (a :: (c' ++ (p0 :: ps) ++ t)) = true) := by
            intro habs
            have hx : (p0 :: ps) <+: (a :: c') ++ (p0 :: ps) ++ t := by
              have := List.isPrefixOf_iff_prefix.mp habs
              simpa using this
            exact not_prefix_mid hps hc (by simp) hx
          have hstep : (a :: c') ++ (p0 :: ps) ++ t = a :: (c' ++ (p0 :: ps) ++ t) := by
            simp
          rw [hstep]
          simp only [replaceAllGo]
          rw [if_neg hnp]
          have hbound : (c' ++ (p0 :: ps) ++ t).length ≤ f := by
            simp only [List.length_append, List.length_cons] at hf ⊢
            omega
          rw [ih f t hbound hc']
          have harith : f + 1 - (a :: c').length - 1 = f - c'.length - 1 := by
            simp only [List.length_cons]
            omega
          rw [harith]
          simp [List.cons_append, List.append_assoc]

theorem replaceAll_seg {p0 : Char} {ps rep c : List Char} (hps : p0 ∉ ps)
    (hc : firstIdx (p0 :: ps) c = none) (t : List Char) :
    replaceAll p0 ps rep (c ++ (p0 :: ps) ++ t) = c ++ rep ++ replaceAll p0 ps rep t := by
  unfold replaceAll
  rw [replaceAllGo_seg p0 ps rep hps c _ t (Nat.le_refl _) hc]
  rw [replaceAllGo_fuel_invariant p0 ps rep
    ((c ++ (p0 :: ps) ++ t).length - c.length - 1) t.length t
    (by simp only [List.length_append, List.length_cons]; omega) (Nat.le_refl _)]

theorem replaceAll_sepJoin {p0 : Char} {ps rep : List Char} (hps : p0 ∉ ps) :
    ∀ (parts : List (List Char)), parts ≠ [] →
      (∀ c ∈ parts, firstIdx (p0 :: ps) c = none) →
      replaceAll p0 ps rep (sepJoin (p0 :: ps) parts) = sepJoin rep parts := by
  intro parts
  induction parts with
  | nil => intro h; exact absurd rfl h
  | cons c cs ih =>
      intro _ hfree
      cases cs with
      | nil =>
          show replaceAll p0 ps rep c = c
          exact replaceAll_no_occ (hfree c (List.mem_cons_self c []))
      | cons c2 cs2 =>
          have hfc := hfree c (List.mem_cons_self c (c2 :: cs2))
          rw [show sepJoin (p0 :: ps) (c :: c2 :: cs2)
              = c ++ (p0 :: ps) ++ sepJoin (p0 :: ps) (c2 :: cs2) from rfl]
          rw [replaceAll_seg hps hfc _]
          rw [ih (by simp) (fun x hx => hfree x (List.mem_cons_of_mem c hx))]
          rfl

/-- Claim C3, amended: the `runExplainCheck` substitution is a global
*substring* replacement of `$k` (the regex `\$k` carries no token
boundary), so for a single type override `{k: ty}` every substring
occurrence of `$k` in the wrapped check statement — including as a
prefix of a longer token such as `$10` when `k = 1` — is rewritten to
`$k::ty`; and a default-value override for index `j` lands at position
`j-1` of the bound parameter list (instead of the `null` placeholder)
exactly when the stored value is truthy. -/
theorem c3_override_substitution_amended :
    ∀ (k : Nat) (ty expr : List Char) (parts : List (List Char))
      (d : List (Nat × JSVal)) (j : Nat) (v : JSVal),
      wrapExpressionInExplainCheck expr = sepJoin (patOf k) parts →
      parts ≠ [] →
      (∀ c ∈ parts, firstIdx (patOf k) c = none) →
      '$' ∉ (Nat.repr k).data →
      lookupNum d j = some v →
      truthy v = true →
      1 ≤ j →
      j ≤ paramCount expr →
      applyTypeCasts [(k, ty)] (wrapExpressionInExplainCheck expr)
          = sepJoin (typeAnno k ty) parts
      ∧ (explainParamValues d (paramCount expr)).getD (j - 1) JSVal.null = v := by
  intro k ty expr parts d j v hw hne hfree hd hj hv hj1 hjn
  constructor
  · show replaceAll '$' ((Nat.repr k).data) (typeAnno k ty)
        (wrapExpressionInExplainCheck expr) = _
    rw [hw]
    exact replaceAll_sepJoin hd parts hne hfree
  · unfold explainParamValues
    have hlt : j - 1 < paramCount expr := by omega
    rw [List.getD_eq_getElem?_getD, List.getElem?_map, List.getElem?_range hlt]
    simp only [Option.map_some', Option.getD_some]
    have hj' : j - 1 + 1 = j := by omega
    rw [hj', hj]
    show (if truthy v = true then v else JSVal.null) = v
    rw [if_pos hv]

/-- Claim C3, counterexample to the claim as stated: with the single
type override `{1: "int"}` the fragment `select $1, $10` is rewritten
to `EXPLAIN\nselect $1::int, $1::int0;` — the distinct token `$10` *is*
altered (its `$1` prefix is annotated, corrupting it); and with the
default-value override `{1: false}` (a falsy value) for a one-parameter
fragment the bound parameter list still holds the `null` placeholder,
not the stored value. -/
theorem c3_counterexample :
    applyTypeCasts [(1, ("int").data)]
        (wrapExpressionInExplainCheck (("select $1, $10").data))
      = ("EXPLAIN\nselect $1::int, $1::int0;").data
    ∧ explainParamValues [(1, JSVal.b false)] 1 = [JSVal.null] := by
  exact ⟨by decide, by decide⟩

theorem c3_witness :
    applyTypeCasts [(1, ("int").data)] (wrapExpressionInExplainCheck c3expr)
      = sepJoin (typeAnno 1 (("int").data)) c3parts
    ∧ (explainParamValues [(2, JSVal.b true)] (paramCount c3expr)).getD 1 JSVal.null
      = JSVal.b true :=
  c3_override_substitution_amended 1 (("int").data) c3expr c3parts
    [(2, JSVal.b true)] 2 (JSVal.b true)
    (by decide) (by decide) (by decide) (by decide) (by decide) (by decide)
    (by decide) (by decide)

/-- Claim C9: override resolution is total (never throws): when the
file path is absent the copied mapping is empty — and then every
fragment-identity lookup in it misses, so the caller's `?? {}` yields
the empty mapping likewise; the copy equals the table entry's contents;
the returned object lives at a fresh address distinct from every
object referenced by the table; and mutating the returned mapping
(property assignment on the copy) leaves every table-referenced
per-file object exactly as it was. -/
theorem c9_override_resolution_total_fresh :
    ∀ (α : Type) (table : List (String × Nat)) (heap : List (FileEntry α)) (key : String),
      (ovLookup table key = none →
        heapGet (getSubstitutionsForDocument table heap key).2
          (getSubstitutionsForDocument table heap key).1 = []
        ∧ ∀ h, lookupHash (heapGet (getSubstitutionsForDocument table heap key).2
            (getSubstitutionsForDocument table heap key).1) h = none)
      ∧ heapGet (getSubstitutionsForDocument table heap key).2
          (getSubstitutionsForDocument table heap key).1
          = (match ovLookup table key with
             | some a => heapGet heap a
             | none => [])
      ∧ (∀ p a, (p, a) ∈ table → a < heap.length →
          (getSubstitutionsForDocument table heap key).1 ≠ a)
      ∧ (∀ k v p a, (p, a) ∈ table → a < heap.length →
          heapGet (heapSet (getSubstitutionsForDocument table heap key).2
              (getSubstitutionsForDocument table heap key).1
              (setKey (heapGet (getSubstitutionsForDocument table heap key).2
                (getSubstitutionsForDocument table heap key).1) k v)) a
            = heapGet heap a) := by
  intro α table heap key
  have hcopy : heapGet (getSubstitutionsForDocument table heap key).2
      (getSubstitutionsForDocument table heap key).1
      = (match ovLookup table key with
         | some a => heapGet heap a
         | none => []) := by
    unfold getSubstitutionsForDocument heapGet
    rw [List.getD_eq_getElem?_getD, List.getElem?_concat_length]
    rfl
  refine ⟨fun habs => ?_, hcopy, fun p a _ ha => ?_, fun k v p a _ ha => ?_⟩
  · rw [hcopy, habs]
    exact ⟨rfl, fun h => rfl⟩
  · show heap.length ≠ a
    omega
  · unfold heapSet heapGet getSubstitutionsForDocument
    rw [List.getD_eq_getElem?_getD,
      List.getElem?_set_ne (by show heap.length ≠ a; omega),
      List.getElem?_append, if_pos ha,
      ← List.getD_eq_getElem?_getD]

theorem c9_witness :
    heapGet (getSubstitutionsForDocument c9table c9heap ("Other.hs")).2
        (getSubstitutionsForDocument c9table c9heap ("Other.hs")).1 = []
    ∧ lookupHash (heapGet (getSubstitutionsForDocument c9table c9heap ("Other.hs")).2
        (getSubstitutionsForDocument c9table c9heap ("Other.hs")).1) 1147568695465191 = none
    ∧ (getSubstitutionsForDocument c9table c9heap ("Other.hs")).1 ≠ 0
    ∧ heapGet (heapSet (getSubstitutionsForDocument c9table c9heap ("Other.hs")).2
          (getSubstitutionsForDocument c9table c9heap ("Other.hs")).1
          (setKey (heapGet (getSubstitutionsForDocument c9table c9heap ("Other.hs")).2
            (getSubstitutionsForDocument c9table c9heap ("Other.hs")).1) 5 [(2, ("int"))])) 0
        = heapGet c9heap 0 := by
  have h := c9_override_resolution_total_fresh (List (Nat × String)) c9table c9heap ("Other.hs")
  have habs : ovLookup c9table ("Other.hs") = none := by decide
  refine ⟨(h.1 habs).1, (h.1 habs).2 1147568695465191, ?_, ?_⟩
  · exact h.2.2.1 ("Statements.hs") 0 (by decide) (by decide)
  · exact h.2.2.2 5 [(2, ("int"))] ("Statements.hs") 0 (by decide) (by decide)
